import Mathlib

/-!
Verification development for the Block-Storage repository (SurfStore-style
file synchronization service).

The development shallowly embeds the metadata service (`metastore.py`), the
block stores (`blockstore.py`), the client upload/download pipeline
(`client.py`) and the alternate no-throw metadata variant
(`metastore_noThrowException.py`).  Python dictionaries are embedded as
association lists with insert-or-replace update, matching dict semantics
(unique keys, replacement keeps the key's position).  Machine integers are
embedded as `Nat` (versions are non-negative in every reachable state and
in the specified interface).
-/

/-- Lookup in an association list, embedding Python `dict.get(k, None)` /
`k in dict`. -/
def lookupA {α : Type} : List (String × α) → String → Option α
  | [], _ => none
  | (k', v) :: rest, k => if k' = k then some v else lookupA rest k

/-- Insert-or-replace in an association list, embedding Python
`dict[k] = v`: an existing key keeps its position, a new key is appended. -/
def insertA {α : Type} : List (String × α) → String → α → List (String × α)
  | [], k, v => [(k, v)]
  | (k', v') :: rest, k, v =>
    if k' = k then (k', v) :: rest else (k', v') :: insertA rest k v

/-- Metadata record for one filename, embedding class `FileMetaData` of
`metastore.py`: version counter, ordered hash list, deletion tombstone. -/
structure FileMetaData where
  ver : Nat
  hashlist : List String
  tombstone : Bool
deriving DecidableEq

/-- The freshly constructed record `FileMetaData()`:
`ver = 0`, `hashlist = ()`, `tombstone = False`. -/
def FileMetaData.init : FileMetaData := ⟨0, [], false⟩

/-- One block-store shard, embedding class `BlockStore` of `blockstore.py`:
an in-memory map from hex hash to block bytes (bytes as `List Nat`). -/
structure BlockStore where
  hashBlockMap : List (String × List Nat)
deriving DecidableEq

/-- Embedding of `BlockStore.exposed_has_block`. -/
def BlockStore.has_block (bs : BlockStore) (h : String) : Bool :=
  (lookupA bs.hashBlockMap h).isSome

/-- Embedding of `BlockStore.exposed_get_block`; Python raises `KeyError`
on an absent key, embedded as `none`. -/
def BlockStore.get_block (bs : BlockStore) (h : String) : Option (List Nat) :=
  lookupA bs.hashBlockMap h

/-- Embedding of `BlockStore.exposed_store_block`. -/
def BlockStore.store_block (bs : BlockStore) (h : String) (b : List Nat) : BlockStore :=
  ⟨insertA bs.hashBlockMap h b⟩

/-- Combined system state: the metadata registry `_name_file_map` of
`MetadataStore` together with the pool of block-store shards the service
and the client talk to (the shard list is fixed; only shard contents
change). -/
structure SysState where
  nameFileMap : List (String × FileMetaData)
  blockstores : List BlockStore
deriving DecidableEq

/-- Value of one hexadecimal digit character. -/
def hexDigitVal (c : Char) : Nat :=
  if '0' ≤ c ∧ c ≤ '9' then c.toNat - '0'.toNat
  else if 'a' ≤ c ∧ c ≤ 'f' then c.toNat - 'a'.toNat + 10
  else if 'A' ≤ c ∧ c ≤ 'F' then c.toNat - 'A'.toNat + 10
  else 0

/-- Embedding of Python `int(h, 16)` on hex-digit strings. -/
def hexVal (s : String) : Nat :=
  s.data.foldl (fun a c => 16 * a + hexDigitVal c) 0

/-- Number of block stores, `self.num_block_stores` (the config declares as
many shards as connections are opened). -/
def SysState.num_block_stores (s : SysState) : Nat := s.blockstores.length

/-- Embedding of `MetadataStore._find_server` (and the identical
`SurfStoreClient._find_server`): `int(h, 16) % num_block_stores`. -/
def SysState.find_server (s : SysState) (h : String) : Nat :=
  hexVal h % s.num_block_stores

/-- Embedding of `MetadataStore._check_blockstore`: ask the owning shard
`has_block(h)`. -/
def SysState.check_blockstore (s : SysState) (h : String) : Bool :=
  (s.blockstores.getD (s.find_server h) ⟨[]⟩).has_block h

/-- Fetch a block from its owning shard, the read path used by the client
(`get_block` against shard `_find_server(h)`). -/
def SysState.getBlock (s : SysState) (h : String) : Option (List Nat) :=
  (s.blockstores.getD (s.find_server h) ⟨[]⟩).get_block h

/-- Store a block on shard `i`, the client write path
(`store_block` against the shard's connection). -/
def SysState.storeBlockAt (s : SysState) (i : Nat) (h : String) (b : List Nat) : SysState :=
  { s with blockstores := s.blockstores.set i ((s.blockstores.getD i ⟨[]⟩).store_block h b) }

/-- Result of `exposed_modify_file`: normal return, or one of the two
`ErrorResponse` kinds it raises (`error_type` 2 carrying the current
version, `error_type` 1 carrying the missing-hash tuple). -/
inductive ModifyResult where
  | ok : ModifyResult
  | wrongVersion : Nat → ModifyResult
  | missingBlocks : List String → ModifyResult
deriving DecidableEq

/-- Result of `exposed_delete_file`: normal return, `ErrorResponse` with
`file_not_found` (`error_type` 3), or `wrong_version_error` (`error_type` 2). -/
inductive DeleteResult where
  | ok : DeleteResult
  | fileNotFound : DeleteResult
  | wrongVersion : Nat → DeleteResult
deriving DecidableEq

/-- Embedding of the `for new_hashval in hashlist` loop of
`exposed_modify_file`.  Returns the pair (hashes on which the shard probe
`_check_blockstore` is invoked, `ret_hashlist` of absent hashes), both in
input order: a hash already in the current record's hashlist is skipped
without probing; otherwise it is probed, and appended to `ret_hashlist`
when the probe reports it absent. -/
def scanHashlist (check : String → Bool) (cur : List String) :
    List String → List String × List String
  | [] => ([], [])
  | h :: rest =>
    if h ∈ cur then scanHashlist check cur rest
    else
      let pm := scanHashlist check cur rest
      if check h then (h :: pm.1, pm.2) else (h :: pm.1, h :: pm.2)

/-- Embedding of lines 91-95 of `exposed_modify_file`: look the filename
up, and when absent insert a fresh `FileMetaData()` into `_name_file_map`
— this happens before the version check, so the insertion survives the
failure paths. -/
def ensureRecord (m : List (String × FileMetaData)) (f : String) :
    List (String × FileMetaData) :=
  match lookupA m f with
  | some _ => m
  | none => insertA m f FileMetaData.init

/-- Embedding of `MetadataStore.exposed_modify_file`. -/
def exposed_modify_file (s : SysState) (filename : String) (version : Nat)
    (hashlist : List String) : SysState × ModifyResult :=
  let stored := (lookupA s.nameFileMap filename).getD FileMetaData.init
  let map1 := ensureRecord s.nameFileMap filename
  if stored.ver + 1 ≠ version then
    ({ s with nameFileMap := map1 }, ModifyResult.wrongVersion stored.ver)
  else
    let ret_hashlist := (scanHashlist s.check_blockstore stored.hashlist hashlist).2
    if ret_hashlist ≠ [] then
      ({ s with nameFileMap := map1 }, ModifyResult.missingBlocks ret_hashlist)
    else
      ({ s with nameFileMap := insertA map1 filename ⟨version, hashlist, false⟩ },
        ModifyResult.ok)

/-- Embedding of `MetadataStore.exposed_delete_file`.  The source sets
`ver` and `tombstone` on success (lines 146-147) and leaves `hashlist`
untouched. -/
def exposed_delete_file (s : SysState) (filename : String) (version : Nat) :
    SysState × DeleteResult :=
  match lookupA s.nameFileMap filename with
  | none => (s, DeleteResult.fileNotFound)
  | some stored =>
    if stored.ver + 1 ≠ version then
      (s, DeleteResult.wrongVersion stored.ver)
    else
      ({ s with nameFileMap :=
          insertA s.nameFileMap filename ⟨version, stored.hashlist, true⟩ },
        DeleteResult.ok)

/-- Embedding of `MetadataStore.exposed_read_file`. -/
def exposed_read_file (s : SysState) (filename : String) : Nat × List String :=
  match lookupA s.nameFileMap filename with
  | none => (0, [])
  | some stored =>
    if stored.tombstone then (stored.ver, []) else (stored.ver, stored.hashlist)

/-- The spec's `current_version` of a filename: 0 when no record exists,
else the stored version. -/
def current_version (s : SysState) (filename : String) : Nat :=
  ((lookupA s.nameFileMap filename).getD FileMetaData.init).ver

/-- A metadata/block-store system with `n` shards, all stores empty and
the registry empty: the state right after startup. -/
def initialState (n : Nat) : SysState :=
  ⟨[], List.replicate n ⟨[]⟩⟩

/-- Chunk size used by `SurfStoreClient`: `f.read(4096)`. -/
def CHUNK_SIZE : Nat := 4096

/-- Chunking worker, structurally recursive on a fuel argument so that it
evaluates by reduction; the fuel never runs out when it is at least the
length of the byte list, since every round consumes at least one byte. -/
def chunkGo : Nat → List Nat → List (List Nat)
  | _, [] => []
  | 0, _ :: _ => []
  | fuel + 1, a :: l =>
    (a :: l).take CHUNK_SIZE :: chunkGo fuel ((a :: l).drop CHUNK_SIZE)

/-- Embedding of the client's chunking loop (`upload` lines 92-98 and the
identical loop in `download`): split the byte sequence into consecutive
chunks of `CHUNK_SIZE`; the final chunk may be shorter; an empty file
yields no chunks. -/
def chunkBytes (l : List Nat) : List (List Nat) :=
  chunkGo l.length l

/-- Embedding of `SurfStoreClient._upload_missing_blocks`: every local
block whose hash is in the reported `missing_blocks` is stored on its
owning shard (`_find_server`).  The source groups the stores per shard in
a per-shard dict keyed by hash; since `store_block` is insert-or-replace,
folding the stores in block order produces the same final shard contents
(last block with a given hash wins). -/
def upload_missing_blocks (hashFn : List Nat → String) (s : SysState)
    (blocks : List (List Nat)) (missing : List String) : SysState :=
  blocks.foldl
    (fun acc b =>
      if hashFn b ∈ missing then
        acc.storeBlockAt (acc.find_server (hashFn b)) (hashFn b) b
      else acc)
    s

/-- Embedding of the `while not modify_succeed` retry loop of
`SurfStoreClient.upload`, with explicit fuel (the source loop is unbounded;
every execution examined here terminates within the provided fuel).
Returns the final system state and whether `OK` was printed. -/
def uploadLoop (hashFn : List Nat → String) (filename : String)
    (blocks : List (List Nat)) (hl : List String) :
    Nat → Nat → SysState → SysState × Bool
  | 0, _, s => (s, false)
  | fuel + 1, version, s =>
    match exposed_modify_file s filename version hl with
    | (s', ModifyResult.ok) => (s', true)
    | (s', ModifyResult.missingBlocks m) =>
      uploadLoop hashFn filename blocks hl fuel version
        (upload_missing_blocks hashFn s' blocks m)
    | (s', ModifyResult.wrongVersion c) =>
      uploadLoop hashFn filename blocks hl fuel (c + 1) s'

/-- Embedding of `SurfStoreClient.upload` on an existing regular file with
contents `fileBytes`: chunk, hash each chunk in order, read the current
version, and drive the retry loop starting at `version + 1`. -/
def upload (hashFn : List Nat → String) (fuel : Nat) (s : SysState)
    (filename : String) (fileBytes : List Nat) : SysState × Bool :=
  let blocks := chunkBytes fileBytes
  let hl := blocks.map hashFn
  let v0 := (exposed_read_file s filename).1
  uploadLoop hashFn filename blocks hl fuel (v0 + 1) s

/-- Outcome of `SurfStoreClient.download`: printed `Not Found` and wrote
nothing (empty hashlist from `read_file`), wrote the destination file with
the given bytes and printed `OK`, or aborted on an exception. -/
inductive DownloadResult where
  | notFound : DownloadResult
  | ok : List Nat → DownloadResult
  | err : DownloadResult
deriving DecidableEq

/-- Embedding of the local-reuse scan of `SurfStoreClient.download`
(lines 178-192): chunk every regular file in the destination directory and
retain the chunks whose hash occurs in the target hashlist. -/
def buildLocalCache (hashFn : List Nat → String) (hl : List String)
    (dstFiles : List (List Nat)) : List (String × List Nat) :=
  dstFiles.foldl
    (fun cache fileBytes =>
      (chunkBytes fileBytes).foldl
        (fun c chunk =>
          if hashFn chunk ∈ hl then insertA c (hashFn chunk) chunk else c)
        cache)
    []

/-- Embedding of `SurfStoreClient._download_missing_blocks`: fetch from
its owning shard every hash of the hashlist not already in the local
cache; an absent block raises `KeyError` on the shard, embedded as `none`. -/
def download_missing_blocks (s : SysState) (cache : List (String × List Nat)) :
    List String → Option (List (String × List Nat))
  | [] => some cache
  | h :: rest =>
    if (lookupA cache h).isSome then download_missing_blocks s cache rest
    else
      match s.getBlock h with
      | none => none
      | some b => download_missing_blocks s (insertA cache h b) rest

/-- Concatenation loop writing the destination file
(`for hash_value in file_block_hash_list: f.write(...)`); a cache miss is
the `KeyError` abort path. -/
def concatBlocks (cache : List (String × List Nat)) : List String → Option (List Nat)
  | [] => some []
  | h :: rest =>
    match lookupA cache h, concatBlocks cache rest with
    | some b, some tl => some (b ++ tl)
    | _, _ => none

/-- Embedding of `SurfStoreClient.download`: read the hashlist from the
metadata service; an empty hashlist prints `Not Found` and returns without
writing; otherwise reuse local chunks, fetch the rest from the owning
shards, and write the concatenation in hashlist order. -/
def download (hashFn : List Nat → String) (s : SysState) (filename : String)
    (dstFiles : List (List Nat)) : DownloadResult :=
  let hl := (exposed_read_file s filename).2
  if hl = [] then DownloadResult.notFound
  else
    match download_missing_blocks s (buildLocalCache hashFn hl dstFiles) hl with
    | none => DownloadResult.err
    | some cache =>
      match concatBlocks cache hl with
      | none => DownloadResult.err
      | some bytes => DownloadResult.ok bytes

namespace NoThrow

/-- Metadata record of `metastore_noThrowException.py` (field `hashList`). -/
structure FileMetaData where
  ver : Nat
  hashList : List String
  tombstone : Bool
deriving DecidableEq

/-- The freshly constructed record of the no-throw variant. -/
def FileMetaData.init : FileMetaData := ⟨0, [], false⟩

/-- In-band result of the no-throw `exposed_modify_file`: `(0, hashlist)`
or `(0, None)` on the success paths, `(1, missing)` and `(2, current)` for
the two caught error kinds, and the uncaught `TypeError` that
`new_hashval in stored_file` raises (membership test on a `FileMetaData`
instance, which supports no containment protocol). -/
inductive Result where
  | success : Option (List String) → Result
  | missing : List String → Result
  | wrongVersion : Nat → Result
  | typeErr : Result
deriving DecidableEq

/-- Embedding of `exposed_modify_file` of `metastore_noThrowException.py`:
an absent filename gets a fresh record inserted and `(0, hashlist)` is
returned at once — the supplied hashlist is never stored and the version
never advances; for an existing record, a version at or below the stored
one yields `(2, current)`, and otherwise the block-check loop hits the
`TypeError` on its first iteration (so only an empty hashlist reaches the
final `return (0, None)`). -/
def exposed_modify_file (m : List (String × FileMetaData)) (filename : String)
    (version : Nat) (hashlist : List String) :
    List (String × FileMetaData) × Result :=
  match lookupA m filename with
  | none => (insertA m filename FileMetaData.init, Result.success (some hashlist))
  | some stored =>
    if stored.ver ≥ version then (m, Result.wrongVersion stored.ver)
    else
      match hashlist with
      | [] => (m, Result.success none)
      | _ :: _ => (m, Result.typeErr)

/-- Embedding of `exposed_read_file` of `metastore_noThrowException.py`:
`(-1, [])` when absent, else the stored version and hash list (the
tombstone is not consulted). -/
def exposed_read_file (m : List (String × FileMetaData)) (filename : String) :
    Int × List String :=
  match lookupA m filename with
  | none => (-1, [])
  | some stored => (stored.ver, stored.hashList)

end NoThrow

/-- A metadata-service call, for reasoning over operation histories. -/
inductive Op where
  | modify : String → Nat → List String → Op
  | delete : String → Nat → Op

/-- Apply one metadata call to the system state, keeping the post-state. -/
def applyOp (s : SysState) : Op → SysState
  | Op.modify f v hl => (exposed_modify_file s f v hl).1
  | Op.delete f v => (exposed_delete_file s f v).1

/-- Apply a sequence of metadata calls in order. -/
def applyOps (s : SysState) (ops : List Op) : SysState :=
  ops.foldl applyOp s

/-- Hashlist of the current record of `f` (empty when no record), the list
against which `exposed_modify_file` tests membership before probing. -/
def currentHashlist (s : SysState) (f : String) : List String :=
  ((lookupA s.nameFileMap f).getD FileMetaData.init).hashlist

/-- The spec's description of the probed hashes: the sub-sequence of the
input hashlist, in input order, of hashes not in the current record's
hashlist. -/
def probedOf (s : SysState) (f : String) (hl : List String) : List String :=
  hl.filter (fun h => !decide (h ∈ currentHashlist s f))

/-- The spec's description of the `missing` payload: the sub-sequence of
the input hashlist, in input order, of hashes neither in the current
record's hashlist nor present on their owning shard. -/
def missingOf (s : SysState) (f : String) (hl : List String) : List String :=
  hl.filter (fun h => !decide (h ∈ currentHashlist s f) && !s.check_blockstore h)

/-- Concrete scenario state for delete: one record at version 1 holding
one hash, whose block is present on the single shard. -/
def sDel : SysState :=
  ⟨[("f", ⟨1, ["aa"], false⟩)], [⟨[("aa", [1, 2])]⟩]⟩

/-- Concrete scenario state with an empty registry and a single shard that
already holds the block hashed `"aa"`. -/
def sBlk : SysState :=
  ⟨[], [⟨[("aa", [7])]⟩]⟩

theorem lookupA_insertA {α : Type} (m : List (String × α)) (k k' : String) (v : α) :
    lookupA (insertA m k v) k' = if k = k' then some v else lookupA m k' := by
  induction m with
  | nil => simp [insertA, lookupA]
  | cons p rest ih =>
    obtain ⟨k'', v''⟩ := p
    by_cases h1 : k'' = k
    · subst h1
      by_cases h2 : k'' = k' <;> simp [insertA, lookupA, h2]
    · by_cases h2 : k'' = k'
      · have hkk' : ¬ k = k' := fun h => h1 (h2.trans h.symm)
        have h1' : ¬ k' = k := h2 ▸ h1
        simp [insertA, lookupA, h1', h2, hkk']
      · simp [insertA, lookupA, h1, h2, ih]

theorem scanHashlist_fst (c : String → Bool) (cur : List String) (l : List String) :
    (scanHashlist c cur l).1 = l.filter (fun h => !decide (h ∈ cur)) := by
  induction l with
  | nil => rfl
  | cons h rest ih =>
    by_cases hc : h ∈ cur
    · simp [scanHashlist, hc, ih]
    · by_cases hch : c h <;> simp [scanHashlist, hc, hch, ih]

theorem scanHashlist_snd (c : String → Bool) (cur : List String) (l : List String) :
    (scanHashlist c cur l).2 = l.filter (fun h => !decide (h ∈ cur) && !c h) := by
  induction l with
  | nil => rfl
  | cons h rest ih =>
    by_cases hc : h ∈ cur
    · simp [scanHashlist, hc, ih]
    · by_cases hch : c h <;> simp [scanHashlist, hc, hch, ih]

theorem modify_blockstores (s : SysState) (f : String) (v : Nat) (hl : List String) :
    (exposed_modify_file s f v hl).1.blockstores = s.blockstores := by
  simp only [exposed_modify_file]
  split
  · rfl
  · split <;> rfl

theorem delete_blockstores (s : SysState) (f : String) (v : Nat) :
    (exposed_delete_file s f v).1.blockstores = s.blockstores := by
  simp only [exposed_delete_file]
  split
  · rfl
  · split <;> rfl

theorem lookupA_ensureRecord_self (m : List (String × FileMetaData)) (f : String) :
    lookupA (ensureRecord m f) f = some ((lookupA m f).getD FileMetaData.init) := by
  simp only [ensureRecord]
  cases h : lookupA m f with
  | none => simp [lookupA_insertA]
  | some r => simp [h]

theorem lookupA_ensureRecord_ne (m : List (String × FileMetaData)) (f g : String)
    (hfg : f ≠ g) : lookupA (ensureRecord m f) g = lookupA m g := by
  simp only [ensureRecord]
  cases h : lookupA m f with
  | none => simp [lookupA_insertA, hfg]
  | some r => rfl

theorem exposed_modify_file_eqn (s : SysState) (f : String) (v : Nat) (hl : List String) :
    exposed_modify_file s f v hl =
      if current_version s f + 1 ≠ v then
        ({ s with nameFileMap := ensureRecord s.nameFileMap f },
          ModifyResult.wrongVersion (current_version s f))
      else if missingOf s f hl ≠ [] then
        ({ s with nameFileMap := ensureRecord s.nameFileMap f },
          ModifyResult.missingBlocks (missingOf s f hl))
      else
        ({ s with nameFileMap := insertA (ensureRecord s.nameFileMap f) f ⟨v, hl, false⟩ },
          ModifyResult.ok) := by
  simp only [exposed_modify_file, current_version, missingOf, currentHashlist,
    scanHashlist_snd]

theorem modify_ok_iff (s : SysState) (f : String) (v : Nat) (hl : List String) :
    (exposed_modify_file s f v hl).2 = ModifyResult.ok ↔
      v = current_version s f + 1 ∧ missingOf s f hl = [] := by
  rw [exposed_modify_file_eqn]
  by_cases h1 : current_version s f + 1 ≠ v
  · have h1' : ¬ v = current_version s f + 1 := fun h => h1 h.symm
    simp [h1, h1']
  · by_cases h2 : missingOf s f hl ≠ []
    · simp [h1, h2]
    · simp [h1, h2, (not_not.mp h1).symm, not_not.mp h2]

theorem modify_fail_map (s : SysState) (f : String) (v : Nat) (hl : List String)
    (h : (exposed_modify_file s f v hl).2 ≠ ModifyResult.ok) :
    (exposed_modify_file s f v hl).1.nameFileMap = ensureRecord s.nameFileMap f := by
  rw [exposed_modify_file_eqn] at h ⊢
  by_cases h1 : current_version s f + 1 ≠ v
  · simp [h1]
  · by_cases h2 : missingOf s f hl ≠ []
    · simp [h1, h2]
    · simp [h1, h2] at h

theorem modify_ok_map (s : SysState) (f : String) (v : Nat) (hl : List String)
    (h : (exposed_modify_file s f v hl).2 = ModifyResult.ok) :
    (exposed_modify_file s f v hl).1.nameFileMap =
      insertA (ensureRecord s.nameFileMap f) f ⟨v, hl, false⟩ := by
  rw [exposed_modify_file_eqn] at h ⊢
  by_cases h1 : current_version s f + 1 ≠ v
  · simp [h1] at h
  · by_cases h2 : missingOf s f hl ≠ []
    · simp [h1, h2] at h
    · simp [h1, h2]

theorem modify_lookup_self_isSome (s : SysState) (f : String) (v : Nat) (hl : List String) :
    (lookupA (exposed_modify_file s f v hl).1.nameFileMap f).isSome := by
  by_cases h : (exposed_modify_file s f v hl).2 = ModifyResult.ok
  · rw [modify_ok_map s f v hl h, lookupA_insertA]
    simp
  · rw [modify_fail_map s f v hl h, lookupA_ensureRecord_self]
    simp

theorem delete_fileNotFound_char (s : SysState) (f : String) (v : Nat) :
    (exposed_delete_file s f v).2 = DeleteResult.fileNotFound ↔
      lookupA s.nameFileMap f = none := by
  simp only [exposed_delete_file]
  cases h : lookupA s.nameFileMap f with
  | none => simp
  | some r => by_cases hv : r.ver + 1 ≠ v <;> simp [hv]

theorem delete_ok_char (s : SysState) (f : String) (v : Nat) :
    (exposed_delete_file s f v).2 = DeleteResult.ok ↔
      ∃ r, lookupA s.nameFileMap f = some r ∧ v = r.ver + 1 := by
  simp only [exposed_delete_file]
  cases h : lookupA s.nameFileMap f with
  | none => simp
  | some r =>
    by_cases hv : r.ver + 1 ≠ v
    · have : ¬ v = r.ver + 1 := fun hh => hv hh.symm
      simp [hv, this]
    · simp [hv, (not_not.mp hv).symm]

theorem delete_ok_map (s : SysState) (f : String) (v : Nat) (r : FileMetaData)
    (hr : lookupA s.nameFileMap f = some r) (hv : v = r.ver + 1) :
    (exposed_delete_file s f v).1.nameFileMap =
      insertA s.nameFileMap f ⟨v, r.hashlist, true⟩ := by
  simp only [exposed_delete_file, hr]
  simp [hv]

theorem read_fst_eq_current (s : SysState) (f : String) :
    (exposed_read_file s f).1 = current_version s f := by
  simp only [exposed_read_file, current_version]
  cases h : lookupA s.nameFileMap f with
  | none => rfl
  | some r => by_cases ht : r.tombstone <;> simp [ht]

theorem delete_fail_state (s : SysState) (f : String) (v : Nat)
    (h : (exposed_delete_file s f v).2 ≠ DeleteResult.ok) :
    (exposed_delete_file s f v).1 = s := by
  simp only [exposed_delete_file] at h ⊢
  cases hr : lookupA s.nameFileMap f with
  | none => simp
  | some r =>
    simp only [hr] at h ⊢
    by_cases hv : r.ver + 1 ≠ v
    · simp [hv]
    · simp [not_not.mp hv] at h

theorem current_version_le_applyOp (s : SysState) (op : Op) (g : String) :
    current_version s g ≤ current_version (applyOp s op) g := by
  cases op with
  | modify f v hl =>
    show current_version s g ≤ current_version (exposed_modify_file s f v hl).1 g
    by_cases hok : (exposed_modify_file s f v hl).2 = ModifyResult.ok
    · have hmap := modify_ok_map s f v hl hok
      have hv := (modify_ok_iff s f v hl).mp hok
      by_cases hfg : f = g
      · subst hfg
        have h2 : current_version (exposed_modify_file s f v hl).1 f = v := by
          simp [current_version, hmap, lookupA_insertA]
        rw [h2, hv.1]
        omega
      · have h2 : current_version (exposed_modify_file s f v hl).1 g =
            current_version s g := by
          simp only [current_version, hmap, lookupA_insertA, if_neg hfg]
          rw [lookupA_ensureRecord_ne _ _ _ hfg]
        rw [h2]
    · have hmap := modify_fail_map s f v hl hok
      by_cases hfg : f = g
      · subst hfg
        have h2 : current_version (exposed_modify_file s f v hl).1 f =
            current_version s f := by
          simp [current_version, hmap, lookupA_ensureRecord_self]
        rw [h2]
      · have h2 : current_version (exposed_modify_file s f v hl).1 g =
            current_version s g := by
          simp only [current_version, hmap]
          rw [lookupA_ensureRecord_ne _ _ _ hfg]
        rw [h2]
  | delete f v =>
    show current_version s g ≤ current_version (exposed_delete_file s f v).1 g
    by_cases hok : (exposed_delete_file s f v).2 = DeleteResult.ok
    · obtain ⟨r, hr, hv⟩ := (delete_ok_char s f v).mp hok
      have hmap := delete_ok_map s f v r hr hv
      by_cases hfg : f = g
      · subst hfg
        have h1 : current_version s f = r.ver := by simp [current_version, hr]
        have h2 : current_version (exposed_delete_file s f v).1 f = v := by
          simp [current_version, hmap, lookupA_insertA]
        rw [h1, h2, hv]
        omega
      · have h2 : current_version (exposed_delete_file s f v).1 g =
            current_version s g := by
          simp only [current_version, hmap, lookupA_insertA, if_neg hfg]
        rw [h2]
    · rw [delete_fail_state s f v hok]

theorem chunkGo_flatten (fuel : Nat) (l : List Nat) (h : l.length ≤ fuel) :
    (chunkGo fuel l).flatten = l := by
  induction fuel generalizing l with
  | zero =>
    cases l with
    | nil => rfl
    | cons a l' => simp at h
  | succ fuel ih =>
    cases l with
    | nil => rfl
    | cons a l' =>
      simp only [List.length_cons] at h
      simp only [chunkGo, List.flatten_cons]
      rw [ih]
      · exact List.take_append_drop CHUNK_SIZE (a :: l')
      · simp only [List.length_drop, List.length_cons, CHUNK_SIZE]
        omega

theorem chunkBytes_flatten (l : List Nat) : (chunkBytes l).flatten = l :=
  chunkGo_flatten l.length l (le_refl _)

theorem chunkBytes_ne_nil (l : List Nat) (h : l ≠ []) : chunkBytes l ≠ [] := by
  cases l with
  | nil => exact absurd rfl h
  | cons a l' => simp [chunkBytes, chunkGo]

theorem storeBlockAt_nameFileMap (s : SysState) (i : Nat) (h : String) (b : List Nat) :
    (s.storeBlockAt i h b).nameFileMap = s.nameFileMap := rfl

theorem storeBlockAt_length (s : SysState) (i : Nat) (h : String) (b : List Nat) :
    (s.storeBlockAt i h b).blockstores.length = s.blockstores.length := by
  simp [SysState.storeBlockAt]

theorem find_server_storeBlockAt (s : SysState) (i : Nat) (h : String) (b : List Nat)
    (h' : String) : (s.storeBlockAt i h b).find_server h' = s.find_server h' := by
  simp [SysState.find_server, SysState.num_block_stores, SysState.storeBlockAt]

theorem getBlock_storeBlockAt_self (s : SysState) (h : String) (b : List Nat)
    (hlen : 0 < s.blockstores.length) :
    (s.storeBlockAt (s.find_server h) h b).getBlock h = some b := by
  have hi : s.find_server h < s.blockstores.length := Nat.mod_lt _ hlen
  simp only [SysState.getBlock]
  rw [find_server_storeBlockAt]
  simp only [SysState.storeBlockAt]
  rw [List.getD_eq_getElem?_getD, List.getElem?_set_self hi]
  simp [BlockStore.store_block, BlockStore.get_block, lookupA_insertA]

theorem getBlock_storeBlockAt_other (s : SysState) (i : Nat) (h h' : String)
    (b : List Nat) (hne : h ≠ h') :
    (s.storeBlockAt i h b).getBlock h' = s.getBlock h' := by
  simp only [SysState.getBlock]
  rw [find_server_storeBlockAt]
  simp only [SysState.storeBlockAt]
  by_cases hij : i = s.find_server h'
  · by_cases hi : i < s.blockstores.length
    · rw [List.getD_eq_getElem?_getD, ← hij, List.getElem?_set_self hi]
      simp [BlockStore.store_block, BlockStore.get_block, lookupA_insertA, hne, hij]
    · rw [List.set_eq_of_length_le (Nat.le_of_not_lt hi)]
  · rw [List.getD_eq_getElem?_getD, List.getElem?_set_ne hij,
      ← List.getD_eq_getElem?_getD]

theorem current_version_le_applyOps (s : SysState) (ops : List Op) (g : String) :
    current_version s g ≤ current_version (applyOps s ops) g := by
  induction ops generalizing s with
  | nil => exact le_refl _
  | cons op rest ih =>
    have h1 := current_version_le_applyOp s op g
    have h2 := ih (applyOp s op)
    simp only [applyOps, List.foldl] at h2 ⊢
    omega

theorem upload_missing_blocks_cons (hashFn : List Nat → String) (s : SysState)
    (b : List Nat) (rest : List (List Nat)) (m : List String) :
    upload_missing_blocks hashFn s (b :: rest) m =
      upload_missing_blocks hashFn
        (if hashFn b ∈ m then
          s.storeBlockAt (s.find_server (hashFn b)) (hashFn b) b
        else s) rest m := rfl

theorem upload_missing_blocks_nameFileMap (hashFn : List Nat → String)
    (blocks : List (List Nat)) (m : List String) :
    ∀ s : SysState,
      (upload_missing_blocks hashFn s blocks m).nameFileMap = s.nameFileMap := by
  induction blocks with
  | nil => intro s; rfl
  | cons b rest ih =>
    intro s
    rw [upload_missing_blocks_cons, ih]
    by_cases hb : hashFn b ∈ m <;> simp [hb, storeBlockAt_nameFileMap]

theorem upload_missing_blocks_length (hashFn : List Nat → String)
    (blocks : List (List Nat)) (m : List String) :
    ∀ s : SysState,
      (upload_missing_blocks hashFn s blocks m).blockstores.length =
        s.blockstores.length := by
  induction blocks with
  | nil => intro s; rfl
  | cons b rest ih =>
    intro s
    rw [upload_missing_blocks_cons, ih]
    by_cases hb : hashFn b ∈ m <;> simp [hb, storeBlockAt_length]

theorem upload_missing_blocks_mono (hashFn : List Nat → String)
    (blocks : List (List Nat)) (m : List String) (h : String) :
    ∀ s : SysState, 0 < s.blockstores.length → (s.getBlock h).isSome →
      ((upload_missing_blocks hashFn s blocks m).getBlock h).isSome := by
  induction blocks with
  | nil => intro s _ hs; exact hs
  | cons b rest ih =>
    intro s hlen hs
    rw [upload_missing_blocks_cons]
    by_cases hb : hashFn b ∈ m
    · rw [if_pos hb]
      refine ih _ ?_ ?_
      · rw [storeBlockAt_length]; exact hlen
      · by_cases hbh : hashFn b = h
        · subst hbh
          rw [getBlock_storeBlockAt_self s _ b hlen]
          rfl
        · rw [getBlock_storeBlockAt_other s _ _ _ _ hbh]
          exact hs
    · rw [if_neg hb]
      exact ih s hlen hs

theorem upload_missing_blocks_provenance (hashFn : List Nat → String)
    (blocks : List (List Nat)) (m : List String) (h : String) :
    ∀ s : SysState, 0 < s.blockstores.length →
      (upload_missing_blocks hashFn s blocks m).getBlock h = s.getBlock h ∨
        ∃ b', b' ∈ blocks ∧ hashFn b' = h ∧
          (upload_missing_blocks hashFn s blocks m).getBlock h = some b' := by
  induction blocks with
  | nil => intro s _; left; rfl
  | cons b rest ih =>
    intro s hlen
    rw [upload_missing_blocks_cons]
    by_cases hb : hashFn b ∈ m
    · rw [if_pos hb]
      have hlen' : 0 <
          (s.storeBlockAt (s.find_server (hashFn b)) (hashFn b) b).blockstores.length := by
        rw [storeBlockAt_length]; exact hlen
      rcases ih _ hlen' with hsame | ⟨b', hb', hhb', heq⟩
      · by_cases hbh : hashFn b = h
        · right
          refine ⟨b, List.mem_cons_self _ _, hbh, ?_⟩
          rw [hsame]
          subst hbh
          exact getBlock_storeBlockAt_self s _ b hlen
        · left
          rw [hsame, getBlock_storeBlockAt_other s _ _ _ _ hbh]
      · right
        exact ⟨b', List.mem_cons_of_mem _ hb', hhb', heq⟩
    · rw [if_neg hb]
      rcases ih s hlen with hsame | ⟨b', hb', hhb', heq⟩
      · left; exact hsame
      · right; exact ⟨b', List.mem_cons_of_mem _ hb', hhb', heq⟩

theorem upload_missing_blocks_coverage (hashFn : List Nat → String)
    (blocks : List (List Nat)) (m : List String) :
    ∀ s : SysState, 0 < s.blockstores.length →
      ∀ b ∈ blocks, hashFn b ∈ m →
        ((upload_missing_blocks hashFn s blocks m).getBlock (hashFn b)).isSome := by
  induction blocks with
  | nil =>
    intro s _ b hb
    cases hb
  | cons b0 rest ih =>
    intro s hlen b hb hm
    rw [upload_missing_blocks_cons]
    rcases List.mem_cons.mp hb with rfl | hbr
    · rw [if_pos hm]
      refine upload_missing_blocks_mono hashFn rest m (hashFn b) _ ?_ ?_
      · rw [storeBlockAt_length]; exact hlen
      · rw [getBlock_storeBlockAt_self s _ b hlen]
        rfl
    · by_cases hb0 : hashFn b0 ∈ m
      · rw [if_pos hb0]
        exact ih _ (by rw [storeBlockAt_length]; exact hlen) b hbr hm
      · rw [if_neg hb0]
        exact ih s hlen b hbr hm

theorem check_blockstore_eq_getBlock (s : SysState) (h : String) :
    s.check_blockstore h = (s.getBlock h).isSome := rfl

theorem getBlock_eq_of_blockstores (s s' : SysState)
    (hbs : s.blockstores = s'.blockstores) (h : String) :
    s.getBlock h = s'.getBlock h := by
  simp [SysState.getBlock, SysState.find_server, SysState.num_block_stores, hbs]

theorem getBlock_initialState (n : Nat) (h : String) :
    (initialState n).getBlock h = none := by
  simp only [SysState.getBlock, BlockStore.get_block]
  have hbs : (initialState n).blockstores = List.replicate n ⟨[]⟩ := rfl
  rw [hbs, List.getD_eq_getElem?_getD, List.getElem?_replicate]
  by_cases hlt : (initialState n).find_server h < n <;> simp [hlt, lookupA]

theorem download_missing_blocks_mono (s : SysState) (l : List String) :
    ∀ c cache : List (String × List Nat),
      download_missing_blocks s c l = some cache →
      ∀ h', (lookupA c h').isSome → (lookupA cache h').isSome := by
  induction l with
  | nil =>
    intro c cache heq h' hh
    cases heq
    exact hh
  | cons h rest ih =>
    intro c cache heq h' hh
    simp only [download_missing_blocks] at heq
    by_cases hc : (lookupA c h).isSome
    · rw [if_pos hc] at heq
      exact ih c cache heq h' hh
    · rw [if_neg hc] at heq
      cases hg : s.getBlock h with
      | none => rw [hg] at heq; cases heq
      | some b =>
        rw [hg] at heq
        refine ih _ _ heq h' ?_
        rw [lookupA_insertA]
        by_cases hxh : h = h' <;> simp [hxh, hh]

theorem download_missing_blocks_spec (s : SysState) (l : List String) :
    ∀ c : List (String × List Nat),
      (∀ h', (lookupA c h').isSome → lookupA c h' = s.getBlock h') →
      (∀ h ∈ l, (s.getBlock h).isSome) →
      ∃ cache, download_missing_blocks s c l = some cache ∧
        (∀ h', (lookupA cache h').isSome → lookupA cache h' = s.getBlock h') ∧
        (∀ h ∈ l, (lookupA cache h).isSome) := by
  induction l with
  | nil =>
    intro c hagree _
    exact ⟨c, rfl, hagree, by intro h hh; cases hh⟩
  | cons h rest ih =>
    intro c hagree hsome
    simp only [download_missing_blocks]
    by_cases hc : (lookupA c h).isSome
    · rw [if_pos hc]
      obtain ⟨cache, heq, hag, hpres⟩ :=
        ih c hagree (fun x hx => hsome x (List.mem_cons_of_mem _ hx))
      refine ⟨cache, heq, hag, ?_⟩
      intro x hx
      rcases List.mem_cons.mp hx with rfl | hxr
      · exact download_missing_blocks_mono s rest c cache heq x hc
      · exact hpres x hxr
    · rw [if_neg hc]
      have hg : (s.getBlock h).isSome := hsome h (List.mem_cons_self _ _)
      cases hgb : s.getBlock h with
      | none => rw [hgb] at hg; cases hg
      | some b =>
        have hagree' : ∀ h', (lookupA (insertA c h b) h').isSome →
            lookupA (insertA c h b) h' = s.getBlock h' := by
          intro h' hh'
          rw [lookupA_insertA] at hh' ⊢
          by_cases hxh : h = h'
          · rw [if_pos hxh]
            rw [← hxh, hgb]
          · rw [if_neg hxh] at hh' ⊢
            exact hagree h' hh'
        obtain ⟨cache, heq, hag, hpres⟩ :=
          ih _ hagree' (fun x hx => hsome x (List.mem_cons_of_mem _ hx))
        refine ⟨cache, heq, hag, ?_⟩
        intro x hx
        rcases List.mem_cons.mp hx with rfl | hxr
        · refine download_missing_blocks_mono s rest _ cache heq x ?_
          rw [lookupA_insertA, if_pos rfl]
          rfl
        · exact hpres x hxr

theorem concatBlocks_map (cache : List (String × List Nat))
    (hashFn : List Nat → String) (blocks : List (List Nat))
    (hc : ∀ b ∈ blocks, lookupA cache (hashFn b) = some b) :
    concatBlocks cache (blocks.map hashFn) = some blocks.flatten := by
  induction blocks with
  | nil => rfl
  | cons b rest ih =>
    simp only [List.map_cons, concatBlocks, List.flatten_cons]
    rw [hc b (List.mem_cons_self _ _),
      ih (fun x hx => hc x (List.mem_cons_of_mem _ hx))]

theorem missingOf_initialState (n : Nat) (f : String) (hl : List String) :
    missingOf (initialState n) f hl = hl := by
  unfold missingOf
  rw [List.filter_eq_self]
  intro h _
  have h1 : currentHashlist (initialState n) f = [] := rfl
  rw [h1, check_blockstore_eq_getBlock, getBlock_initialState]
  simp

theorem missingOf_eq_nil_of_present (s : SysState) (f : String) (hl : List String)
    (hpres : ∀ h ∈ hl, s.check_blockstore h = true) :
    missingOf s f hl = [] := by
  unfold missingOf
  rw [List.filter_eq_nil_iff]
  intro h hh
  simp [hpres h hh]

theorem modify_initial_missing (n : Nat) (f : String) (hl : List String)
    (hne : hl ≠ []) :
    exposed_modify_file (initialState n) f 1 hl =
      (⟨[(f, FileMetaData.init)], List.replicate n ⟨[]⟩⟩,
        ModifyResult.missingBlocks hl) := by
  rw [exposed_modify_file_eqn]
  have h1 : ¬ (current_version (initialState n) f + 1 ≠ 1) := by
    simp [current_version, initialState, lookupA, FileMetaData.init]
  rw [if_neg h1, missingOf_initialState, if_pos hne]
  simp [ensureRecord, initialState, lookupA, insertA]

theorem uploadLoop_succ_ok (hashFn : List Nat → String) (f : String)
    (blocks : List (List Nat)) (hl : List String) (fuel version : Nat)
    (s : SysState) (h : (exposed_modify_file s f version hl).2 = ModifyResult.ok) :
    uploadLoop hashFn f blocks hl (fuel + 1) version s =
      ((exposed_modify_file s f version hl).1, true) := by
  simp only [uploadLoop]
  rcases hp : exposed_modify_file s f version hl with ⟨s', r⟩
  rw [hp] at h
  simp only at h
  subst h
  rfl

theorem uploadLoop_succ_missing (hashFn : List Nat → String) (f : String)
    (blocks : List (List Nat)) (hl : List String) (fuel version : Nat)
    (s s' : SysState) (m : List String)
    (h : exposed_modify_file s f version hl = (s', ModifyResult.missingBlocks m)) :
    uploadLoop hashFn f blocks hl (fuel + 1) version s =
      uploadLoop hashFn f blocks hl fuel version
        (upload_missing_blocks hashFn s' blocks m) := by
  simp only [uploadLoop]
  rw [h]

theorem upload_fresh_ok (hashFn : List Nat → String) (numBS k : Nat) (f : String)
    (fileBytes : List Nat) (hn : 0 < numBS) (hne : fileBytes ≠ []) :
    ∃ s3 : SysState,
      upload hashFn (k + 2) (initialState numBS) f fileBytes = (s3, true) ∧
      exposed_read_file s3 f = (1, (chunkBytes fileBytes).map hashFn) ∧
      ∀ b ∈ chunkBytes fileBytes, ∃ b', b' ∈ chunkBytes fileBytes ∧
        hashFn b' = hashFn b ∧ s3.getBlock (hashFn b) = some b' := by
  have hbne : chunkBytes fileBytes ≠ [] := chunkBytes_ne_nil _ hne
  have hlne : (chunkBytes fileBytes).map hashFn ≠ [] := by
    intro hcon
    exact hbne (List.map_eq_nil_iff.mp hcon)
  have hfirst := modify_initial_missing numBS f ((chunkBytes fileBytes).map hashFn) hlne
  have hs1lenpos : (0 : Nat) <
      (⟨[(f, FileMetaData.init)], List.replicate numBS ⟨[]⟩⟩ : SysState).blockstores.length := by
    simpa using hn
  have hs1get : ∀ h : String,
      (⟨[(f, FileMetaData.init)], List.replicate numBS ⟨[]⟩⟩ : SysState).getBlock h = none := by
    intro h
    rw [getBlock_eq_of_blockstores
      ⟨[(f, FileMetaData.init)], List.replicate numBS ⟨[]⟩⟩ (initialState numBS) rfl]
    exact getBlock_initialState numBS h
  have hs2map : (upload_missing_blocks hashFn
      ⟨[(f, FileMetaData.init)], List.replicate numBS ⟨[]⟩⟩
      (chunkBytes fileBytes) ((chunkBytes fileBytes).map hashFn)).nameFileMap =
      [(f, FileMetaData.init)] := by
    rw [upload_missing_blocks_nameFileMap]
  have hs2get : ∀ b ∈ chunkBytes fileBytes, ∃ b', b' ∈ chunkBytes fileBytes ∧
      hashFn b' = hashFn b ∧
      (upload_missing_blocks hashFn
        ⟨[(f, FileMetaData.init)], List.replicate numBS ⟨[]⟩⟩
        (chunkBytes fileBytes) ((chunkBytes fileBytes).map hashFn)).getBlock
        (hashFn b) = some b' := by
    intro b hb
    have hmem : hashFn b ∈ (chunkBytes fileBytes).map hashFn :=
      List.mem_map_of_mem _ hb
    have hcov := upload_missing_blocks_coverage hashFn (chunkBytes fileBytes)
      ((chunkBytes fileBytes).map hashFn) _ hs1lenpos b hb hmem
    rcases upload_missing_blocks_provenance hashFn (chunkBytes fileBytes)
        ((chunkBytes fileBytes).map hashFn) (hashFn b) _ hs1lenpos with
      hsame | ⟨b', hb', hhb', heq⟩
    · rw [hsame, hs1get] at hcov
      simp at hcov
    · exact ⟨b', hb', hhb', heq⟩
  have hpres : ∀ h ∈ (chunkBytes fileBytes).map hashFn,
      (upload_missing_blocks hashFn
        ⟨[(f, FileMetaData.init)], List.replicate numBS ⟨[]⟩⟩
        (chunkBytes fileBytes) ((chunkBytes fileBytes).map hashFn)).check_blockstore
        h = true := by
    intro h hh
    obtain ⟨b, hb, rfl⟩ := List.mem_map.mp hh
    obtain ⟨b', hb1, hb2, heq⟩ := hs2get b hb
    rw [check_blockstore_eq_getBlock, heq]
    rfl
  have hcv2 : current_version (upload_missing_blocks hashFn
      ⟨[(f, FileMetaData.init)], List.replicate numBS ⟨[]⟩⟩
      (chunkBytes fileBytes) ((chunkBytes fileBytes).map hashFn)) f = 0 := by
    simp only [current_version, hs2map]
    simp [lookupA, FileMetaData.init]
  have hok2 : (exposed_modify_file (upload_missing_blocks hashFn
      ⟨[(f, FileMetaData.init)], List.replicate numBS ⟨[]⟩⟩
      (chunkBytes fileBytes) ((chunkBytes fileBytes).map hashFn)) f 1
      ((chunkBytes fileBytes).map hashFn)).2 = ModifyResult.ok :=
    (modify_ok_iff _ _ _ _).mpr
      ⟨by rw [hcv2], missingOf_eq_nil_of_present _ _ _ hpres⟩
  have hmap3 := modify_ok_map _ _ _ _ hok2
  have hlook3 : lookupA (exposed_modify_file (upload_missing_blocks hashFn
      ⟨[(f, FileMetaData.init)], List.replicate numBS ⟨[]⟩⟩
      (chunkBytes fileBytes) ((chunkBytes fileBytes).map hashFn)) f 1
      ((chunkBytes fileBytes).map hashFn)).1.nameFileMap f =
      some ⟨1, (chunkBytes fileBytes).map hashFn, false⟩ := by
    rw [hmap3, lookupA_insertA]
    simp
  refine ⟨(exposed_modify_file (upload_missing_blocks hashFn
      ⟨[(f, FileMetaData.init)], List.replicate numBS ⟨[]⟩⟩
      (chunkBytes fileBytes) ((chunkBytes fileBytes).map hashFn)) f 1
      ((chunkBytes fileBytes).map hashFn)).1, ?_, ?_, ?_⟩
  · have hupl : upload hashFn (k + 2) (initialState numBS) f fileBytes =
        uploadLoop hashFn f (chunkBytes fileBytes)
          ((chunkBytes fileBytes).map hashFn) (k + 2) 1 (initialState numBS) := rfl
    rw [hupl,
      uploadLoop_succ_missing hashFn f _ _ (k + 1) 1 _ _ _ hfirst,
      uploadLoop_succ_ok hashFn f _ _ k 1 _ hok2]
  · simp only [exposed_read_file]
    rw [hlook3]
    simp
  · intro b hb
    obtain ⟨b', hb', hhb', heq⟩ := hs2get b hb
    refine ⟨b', hb', hhb', ?_⟩
    rw [getBlock_eq_of_blockstores _ _ (modify_blockstores _ _ _ _) (hashFn b), heq]

theorem download_all_present (hashFn : List Nat → String) (s : SysState)
    (f : String) (blocks : List (List Nat)) (v : Nat)
    (hread : exposed_read_file s f = (v, blocks.map hashFn))
    (hbne : blocks ≠ [])
    (hget : ∀ b ∈ blocks, s.getBlock (hashFn b) = some b) :
    download hashFn s f [] = DownloadResult.ok blocks.flatten := by
  have hlne : blocks.map hashFn ≠ [] := by
    intro hcon
    exact hbne (List.map_eq_nil_iff.mp hcon)
  have h2 : (exposed_read_file s f).2 = blocks.map hashFn := by rw [hread]
  obtain ⟨cache, heq, hag, hpres⟩ :=
    download_missing_blocks_spec s (blocks.map hashFn) []
      (by intro h' hh'; simp [lookupA] at hh')
      (by
        intro h hh
        obtain ⟨b, hb, rfl⟩ := List.mem_map.mp hh
        rw [hget b hb]
        rfl)
  have hcl : ∀ b ∈ blocks, lookupA cache (hashFn b) = some b := by
    intro b hb
    have h1 : (lookupA cache (hashFn b)).isSome :=
      hpres _ (List.mem_map_of_mem _ hb)
    rw [hag _ h1, hget b hb]
  have hconc := concatBlocks_map cache hashFn blocks hcl
  have hbuild : buildLocalCache hashFn (blocks.map hashFn) [] = [] := rfl
  simp only [download, h2]
  rw [if_neg hlne]
  simp only [hbuild, heq, hconc]

/-- Claim C1, counterexample: calling `modify_file` on an absent filename
with a wrong version does raise `WrongVersion(0)`, but the registry is not
left unchanged — a default record is inserted for the filename even though
it has never had a successful modify or delete. -/
theorem C1_counterexample :
    5 ≠ current_version (initialState 1) "a" + 1 ∧
    (exposed_modify_file (initialState 1) "a" 5 []).2 =
      ModifyResult.wrongVersion (current_version (initialState 1) "a") ∧
    (exposed_modify_file (initialState 1) "a" 5 []).1.nameFileMap ≠
      (initialState 1).nameFileMap :=
  ⟨by decide, by decide, by decide⟩

/-- Claim C1, amended: whenever `modify_file(f, v, hashlist)` is called with
`v ≠ current_version + 1` it fails with `WrongVersion(current_version)` and
leaves the block stores and every existing record unchanged; however, when
`f` had no record, a default record (version 0, empty hashlist, no
tombstone) is inserted into the registry before the version check, so a
record can exist for a filename that never had a successful modify or
delete. -/
theorem C1_wrong_version_amended (s : SysState) (f : String) (v : Nat)
    (hl : List String) (hv : v ≠ current_version s f + 1) :
    (exposed_modify_file s f v hl).2 =
      ModifyResult.wrongVersion (current_version s f) ∧
    (exposed_modify_file s f v hl).1.blockstores = s.blockstores ∧
    (exposed_modify_file s f v hl).1.nameFileMap = ensureRecord s.nameFileMap f := by
  have h1 : current_version s f + 1 ≠ v := fun h => hv h.symm
  rw [exposed_modify_file_eqn]
  simp [h1]

/-- Claim C1, witness instantiating the amended theorem. -/
theorem C1_witness :
    5 ≠ current_version (initialState 1) "a" + 1 ∧
    ((exposed_modify_file (initialState 1) "a" 5 []).2 =
        ModifyResult.wrongVersion (current_version (initialState 1) "a") ∧
      (exposed_modify_file (initialState 1) "a" 5 []).1.blockstores =
        (initialState 1).blockstores ∧
      (exposed_modify_file (initialState 1) "a" 5 []).1.nameFileMap =
        ensureRecord (initialState 1).nameFileMap "a") :=
  ⟨by decide, C1_wrong_version_amended (initialState 1) "a" 5 [] (by decide)⟩

/-- Claim C2, counterexample: a successful `delete_file` at version 2 of a
record holding the hash `"aa"` sets the tombstone but leaves the stored
hashlist `["aa"]` — it is not set to the empty sequence, so in this
reachable state `tombstone = true` holds with a non-empty stored hashlist. -/
theorem C2_counterexample :
    (exposed_delete_file sDel "f" 2).2 = DeleteResult.ok ∧
    lookupA (exposed_delete_file sDel "f" 2).1.nameFileMap "f" =
      some ⟨2, ["aa"], true⟩ ∧
    ((lookupA (exposed_delete_file sDel "f" 2).1.nameFileMap "f").getD
        FileMetaData.init).hashlist ≠ [] :=
  ⟨by decide, by decide, by decide⟩

/-- Claim C2, amended: a successful `delete_file(f, v)` (which requires a
record with `v = stored version + 1`) sets the record's tombstone to true
and its version to `v` but keeps the previously stored hashlist; the
emptiness is only observational: a subsequent `read_file(f)` returns
`(v, [])` because reads of tombstoned records report an empty hashlist. -/
theorem C2_delete_amended (s : SysState) (f : String) (v : Nat)
    (h : (exposed_delete_file s f v).2 = DeleteResult.ok) :
    ∃ stored, lookupA s.nameFileMap f = some stored ∧ v = stored.ver + 1 ∧
      lookupA (exposed_delete_file s f v).1.nameFileMap f =
        some ⟨v, stored.hashlist, true⟩ ∧
      exposed_read_file (exposed_delete_file s f v).1 f = (v, []) := by
  obtain ⟨r, hr, hv⟩ := (delete_ok_char s f v).mp h
  refine ⟨r, hr, hv, ?_, ?_⟩
  · rw [delete_ok_map s f v r hr hv, lookupA_insertA]
    simp
  · simp only [exposed_read_file]
    rw [delete_ok_map s f v r hr hv, lookupA_insertA]
    simp

/-- Claim C2, witness instantiating the amended theorem. -/
theorem C2_witness :
    (exposed_delete_file sDel "f" 2).2 = DeleteResult.ok ∧
    lookupA (exposed_delete_file sDel "f" 2).1.nameFileMap "f" =
      some ⟨2, ["aa"], true⟩ ∧
    exposed_read_file (exposed_delete_file sDel "f" 2).1 "f" = (2, []) := by
  obtain ⟨stored, hr, -, hlook, hread⟩ := C2_delete_amended sDel "f" 2 (by decide)
  have hx : lookupA sDel.nameFileMap "f" =
      some (⟨1, ["aa"], false⟩ : FileMetaData) := by decide
  have hst : stored = ⟨1, ["aa"], false⟩ := Option.some.inj (hr.symm.trans hx)
  subst hst
  exact ⟨by decide, hlook, hread⟩

/-- Claim C3, counterexample: on an empty registry, a failed
`modify_file("a", 5, [])` (wrong version) creates a record, after which
`delete_file("a", 1)` succeeds instead of failing with `FileNotFound`,
although `"a"` never had a successful modify or delete. -/
theorem C3_counterexample :
    lookupA (initialState 1).nameFileMap "a" = none ∧
    (exposed_modify_file (initialState 1) "a" 5 []).2 ≠ ModifyResult.ok ∧
    (exposed_delete_file
        (exposed_modify_file (initialState 1) "a" 5 []).1 "a" 1).2 =
      DeleteResult.ok :=
  ⟨by decide, by decide, by decide⟩

/-- Claim C3, amended: `delete_file(f, v)` fails with `FileNotFound`
exactly when `f` has no record in the registry; however a record exists
after ANY `modify_file` attempt on `f`, failed or not, so after a failed
modify attempt `delete_file` no longer fails with `FileNotFound`. -/
theorem C3_delete_notfound_amended (s : SysState) (f : String) (v v' : Nat)
    (hl : List String) :
    ((exposed_delete_file s f v).2 = DeleteResult.fileNotFound ↔
      lookupA s.nameFileMap f = none) ∧
    (exposed_delete_file (exposed_modify_file s f v' hl).1 f v).2 ≠
      DeleteResult.fileNotFound := by
  refine ⟨delete_fileNotFound_char s f v, ?_⟩
  intro hcon
  have hnone := (delete_fileNotFound_char _ f v).mp hcon
  have h2 := modify_lookup_self_isSome s f v' hl
  rw [hnone] at h2
  simp at h2

/-- Claim C3, witness instantiating the amended theorem. -/
theorem C3_witness :
    ((exposed_delete_file (initialState 1) "a" 1).2 = DeleteResult.fileNotFound ↔
      lookupA (initialState 1).nameFileMap "a" = none) ∧
    (exposed_delete_file
        (exposed_modify_file (initialState 1) "a" 5 []).1 "a" 1).2 ≠
      DeleteResult.fileNotFound :=
  C3_delete_notfound_amended (initialState 1) "a" 1 5 []

/-- Claim C4: a successful `modify_file(f, v, h)` sets the record's
hashlist to `h`, tombstone to false and version to `v`, leaves the block
stores untouched, and a subsequent `read_file(f)` with no intervening
writes returns exactly `(v, h)`. -/
theorem C4_modify_ok (s : SysState) (f : String) (v : Nat) (hl : List String)
    (h : (exposed_modify_file s f v hl).2 = ModifyResult.ok) :
    lookupA (exposed_modify_file s f v hl).1.nameFileMap f = some ⟨v, hl, false⟩ ∧
    (exposed_modify_file s f v hl).1.blockstores = s.blockstores ∧
    exposed_read_file (exposed_modify_file s f v hl).1 f = (v, hl) := by
  have hmap := modify_ok_map s f v hl h
  refine ⟨?_, modify_blockstores s f v hl, ?_⟩
  · rw [hmap, lookupA_insertA]
    simp
  · simp only [exposed_read_file]
    rw [hmap, lookupA_insertA]
    simp

/-- Claim C4, witness: a successful modify of `"f"` at version 1 with
hashlist `["aa"]` whose block is present on the shard. -/
theorem C4_witness :
    (exposed_modify_file sBlk "f" 1 ["aa"]).2 = ModifyResult.ok ∧
    (lookupA (exposed_modify_file sBlk "f" 1 ["aa"]).1.nameFileMap "f" =
        some ⟨1, ["aa"], false⟩ ∧
      (exposed_modify_file sBlk "f" 1 ["aa"]).1.blockstores = sBlk.blockstores ∧
      exposed_read_file (exposed_modify_file sBlk "f" 1 ["aa"]).1 "f" =
        (1, ["aa"])) :=
  ⟨by decide, C4_modify_ok sBlk "f" 1 ["aa"] (by decide)⟩

/-- Claim C5: when `modify_file` passes the version check, the shard probe
`has(h)` is invoked exactly on the sub-sequence of input hashes not in the
current record's hashlist, and the call fails with `MissingBlocks` whose
payload is exactly the sub-sequence of input hashes (in input order) that
are neither in the current hashlist nor present on their owning shard —
succeeding iff that sub-sequence is empty. -/
theorem C5_probe_missing (s : SysState) (f : String) (v : Nat) (hl : List String)
    (hv : v = current_version s f + 1) :
    (scanHashlist s.check_blockstore (currentHashlist s f) hl).1 = probedOf s f hl ∧
    (missingOf s f hl ≠ [] →
      (exposed_modify_file s f v hl).2 =
        ModifyResult.missingBlocks (missingOf s f hl)) ∧
    (missingOf s f hl = [] → (exposed_modify_file s f v hl).2 = ModifyResult.ok) := by
  have h1 : ¬ current_version s f + 1 ≠ v := fun h => h hv.symm
  refine ⟨scanHashlist_fst _ _ _, ?_, ?_⟩
  · intro hm
    rw [exposed_modify_file_eqn]
    simp [h1, hm]
  · intro hm
    rw [exposed_modify_file_eqn]
    simp [h1, hm]

/-- Claim C5, witness: on an empty shard, a version-correct modify probes
the single input hash and reports it missing. -/
theorem C5_witness :
    (1 : Nat) = current_version (initialState 1) "a" + 1 ∧
    missingOf (initialState 1) "a" ["aa"] ≠ [] ∧
    (scanHashlist (initialState 1).check_blockstore
        (currentHashlist (initialState 1) "a") ["aa"]).1 =
      probedOf (initialState 1) "a" ["aa"] ∧
    (exposed_modify_file (initialState 1) "a" 1 ["aa"]).2 =
      ModifyResult.missingBlocks (missingOf (initialState 1) "a" ["aa"]) :=
  ⟨by decide, by decide,
    (C5_probe_missing (initialState 1) "a" 1 ["aa"] (by decide)).1,
    (C5_probe_missing (initialState 1) "a" 1 ["aa"] (by decide)).2.1 (by decide)⟩

/-- Claim C6: over every sequence of modify and delete calls the version
reported by `read_file` for any filename is non-decreasing, and every
successful `modify_file` or `delete_file` call uses and installs exactly
`current_version + 1` (the version current at the time of the call). -/
theorem C6_version_monotone (s : SysState) (ops : List Op) (f : String) (v : Nat)
    (hl : List String) :
    (exposed_read_file s f).1 ≤ (exposed_read_file (applyOps s ops) f).1 ∧
    ((exposed_modify_file s f v hl).2 = ModifyResult.ok →
      v = current_version s f + 1 ∧
      current_version (exposed_modify_file s f v hl).1 f =
        current_version s f + 1) ∧
    ((exposed_delete_file s f v).2 = DeleteResult.ok →
      v = current_version s f + 1 ∧
      current_version (exposed_delete_file s f v).1 f =
        current_version s f + 1) := by
  refine ⟨?_, ?_, ?_⟩
  · rw [read_fst_eq_current, read_fst_eq_current]
    exact current_version_le_applyOps s ops f
  · intro h
    have hv := ((modify_ok_iff s f v hl).mp h).1
    have hmap := modify_ok_map s f v hl h
    have h2 : current_version (exposed_modify_file s f v hl).1 f = v := by
      simp [current_version, hmap, lookupA_insertA]
    exact ⟨hv, by rw [h2, hv]⟩
  · intro h
    obtain ⟨r, hr, hv⟩ := (delete_ok_char s f v).mp h
    have h1 : current_version s f = r.ver := by simp [current_version, hr]
    have h2 : current_version (exposed_delete_file s f v).1 f = v := by
      simp [current_version, delete_ok_map s f v r hr hv, lookupA_insertA]
    exact ⟨by rw [h1, hv], by rw [h1, h2, hv]⟩

/-- Claim C6, witness: a concrete run (modify then delete possibilities at
version 2 over a version-1 record). -/
theorem C6_witness :
    (exposed_read_file sDel "f").1 ≤
      (exposed_read_file (applyOps sDel [Op.modify "f" 2 ["aa"]]) "f").1 ∧
    (2 = current_version sDel "f" + 1 ∧
      current_version (exposed_modify_file sDel "f" 2 ["aa"]).1 "f" =
        current_version sDel "f" + 1) ∧
    (2 = current_version sDel "f" + 1 ∧
      current_version (exposed_delete_file sDel "f" 2).1 "f" =
        current_version sDel "f" + 1) :=
  ⟨(C6_version_monotone sDel [Op.modify "f" 2 ["aa"]] "f" 2 ["aa"]).1,
    (C6_version_monotone sDel [Op.modify "f" 2 ["aa"]] "f" 2 ["aa"]).2.1 (by decide),
    (C6_version_monotone sDel [Op.modify "f" 2 ["aa"]] "f" 2 ["aa"]).2.2 (by decide)⟩

/-- Claim C8: the no-throw variant's `modify_file`, called on a filename
with no record, returns the success code `(0, hashlist)` while the created
record keeps version 0 and an empty hash list, so its subsequent read
reports `(0, [])`; the exception-based variant on the analogous successful
first upload stores the hashlist and reports `(1, hashlist)` — the two are
not behaviorally equivalent. -/
theorem C8_nothrow_first_upload (m : List (String × NoThrow.FileMetaData))
    (f : String) (v : Nat) (hl : List String) (h : lookupA m f = none) :
    NoThrow.exposed_modify_file m f v hl =
      (insertA m f NoThrow.FileMetaData.init, NoThrow.Result.success (some hl)) ∧
    NoThrow.exposed_read_file (NoThrow.exposed_modify_file m f v hl).1 f =
      (0, []) ∧
    exposed_read_file (exposed_modify_file sBlk "f" 1 ["aa"]).1 "f" =
      (1, ["aa"]) := by
  refine ⟨?_, ?_, by decide⟩
  · simp [NoThrow.exposed_modify_file, h]
  · simp [NoThrow.exposed_modify_file, h, NoThrow.exposed_read_file,
      lookupA_insertA, NoThrow.FileMetaData.init]

/-- Claim C8, witness instantiating the theorem on an empty registry. -/
theorem C8_witness :
    NoThrow.exposed_modify_file [] "f" 1 ["aa"] =
      (insertA [] "f" NoThrow.FileMetaData.init,
        NoThrow.Result.success (some ["aa"])) ∧
    NoThrow.exposed_read_file (NoThrow.exposed_modify_file [] "f" 1 ["aa"]).1 "f" =
      (0, []) ∧
    exposed_read_file (exposed_modify_file sBlk "f" 1 ["aa"]).1 "f" =
      (1, ["aa"]) :=
  C8_nothrow_first_upload [] "f" 1 ["aa"] rfl

/-- Claim C9: after a successful `modify_file` of a filename with an empty
hashlist (the upload of an empty file), `read_file` returns `(v, [])`, and
a client download of that filename prints `Not Found` and writes no
destination file, for every destination directory contents. -/
theorem C9_empty_hashlist_download (s : SysState) (f : String) (v : Nat)
    (hashFn : List Nat → String) (dstFiles : List (List Nat))
    (h : (exposed_modify_file s f v []).2 = ModifyResult.ok) :
    exposed_read_file (exposed_modify_file s f v []).1 f = (v, []) ∧
    download hashFn (exposed_modify_file s f v []).1 f dstFiles =
      DownloadResult.notFound := by
  have hmap := modify_ok_map s f v [] h
  have hread : exposed_read_file (exposed_modify_file s f v []).1 f = (v, []) := by
    simp only [exposed_read_file]
    rw [hmap, lookupA_insertA]
    simp
  refine ⟨hread, ?_⟩
  simp [download, hread]

/-- Claim C9, witness: uploading an empty file as `"a"` then downloading it. -/
theorem C9_witness :
    exposed_read_file (exposed_modify_file (initialState 1) "a" 1 []).1 "a" =
      (1, []) ∧
    download (fun _ => "") (exposed_modify_file (initialState 1) "a" 1 []).1
      "a" [] = DownloadResult.notFound :=
  C9_empty_hashlist_download (initialState 1) "a" 1 (fun _ => "") [] (by decide)

/-- Claim C7, counterexample: uploading the empty file succeeds (version 1,
empty hashlist), but the subsequent download of it into a clean directory
prints `Not Found` and writes no destination file, so the round trip does
not reproduce the original (empty) byte sequence. -/
theorem C7_counterexample :
    (upload (fun _ => "aa") 2 (initialState 1) "f" []).2 = true ∧
    download (fun _ => "aa")
      (upload (fun _ => "aa") 2 (initialState 1) "f" []).1 "f" [] =
      DownloadResult.notFound ∧
    download (fun _ => "aa")
      (upload (fun _ => "aa") 2 (initialState 1) "f" []).1 "f" [] ≠
      DownloadResult.ok [] :=
  ⟨by decide, by decide, by decide⟩

/-- Claim C7, amended: for every non-empty local regular file, provided the
block hash function is collision-free on the file's chunks, uploading then
downloading into a clean directory against initially empty metadata and
block stores writes a destination file whose bytes equal the original
exactly; the empty file instead yields `Not Found` on download. -/
theorem C7_roundtrip_amended (hashFn : List Nat → String) (numBS fuel : Nat)
    (filename : String) (fileBytes : List Nat)
    (hn : 0 < numBS) (hfuel : 2 ≤ fuel) (hne : fileBytes ≠ [])
    (hinj : ∀ c1 ∈ chunkBytes fileBytes, ∀ c2 ∈ chunkBytes fileBytes,
      hashFn c1 = hashFn c2 → c1 = c2) :
    (upload hashFn fuel (initialState numBS) filename fileBytes).2 = true ∧
    download hashFn
      (upload hashFn fuel (initialState numBS) filename fileBytes).1
      filename [] = DownloadResult.ok fileBytes := by
  obtain ⟨k, rfl⟩ : ∃ k, fuel = k + 2 := ⟨fuel - 2, by omega⟩
  obtain ⟨s3, hupl, hread, hblocks⟩ :=
    upload_fresh_ok hashFn numBS k filename fileBytes hn hne
  have hget : ∀ b ∈ chunkBytes fileBytes, s3.getBlock (hashFn b) = some b := by
    intro b hb
    obtain ⟨b', hb', hhb', heq⟩ := hblocks b hb
    rw [heq, hinj b' hb' b hb hhb']
  have hdl := download_all_present hashFn s3 filename (chunkBytes fileBytes) 1
    hread (chunkBytes_ne_nil _ hne) hget
  refine ⟨?_, ?_⟩
  · rw [hupl]
  · rw [hupl]
    show download hashFn s3 filename [] = DownloadResult.ok fileBytes
    rw [hdl, chunkBytes_flatten]

/-- Claim C7, witness: round trip of the three-byte file `[1, 2, 3]`. -/
theorem C7_witness :
    0 < 1 ∧ 2 ≤ 2 ∧ ([1, 2, 3] : List Nat) ≠ [] ∧
    (upload (fun _ => "aa") 2 (initialState 1) "f" [1, 2, 3]).2 = true ∧
    download (fun _ => "aa")
      (upload (fun _ => "aa") 2 (initialState 1) "f" [1, 2, 3]).1 "f" [] =
      DownloadResult.ok [1, 2, 3] := by
  have h := C7_roundtrip_amended (fun _ => "aa") 1 2 "f" [1, 2, 3]
    (by decide) (by decide) (by decide)
    (by
      intro c1 hc1 c2 hc2 _
      have hc : chunkBytes [1, 2, 3] = [[1, 2, 3]] := by decide
      rw [hc] at hc1 hc2
      rw [List.mem_singleton.mp hc1, List.mem_singleton.mp hc2])
  exact ⟨by decide, by decide, by decide, h.1, h.2⟩
